import Mathlib

/-!
Verification of the computation-network scheduler of ComputationNetwork.h.

Shallow embedding: node pointers (ComputationNodeBasePtr) are identifiers,
the name registry m_nameToNodeMap is an association list looked up with the
case-insensitive comparator, and the traversal caches are association lists
keyed by root identifier.  Fallible operations return Except.
-/

namespace CNTK

/-- Node pointers (ComputationNodeBasePtr) are modelled as identifiers. -/
abbrev NodeId := Nat

/-- Modelled from the spec: the nocase comparator of m_nameToNodeMap
(declared in the header, body in Basics.h which is not under src); per the
spec, node names are unique case-insensitively, so keys are compared after
case folding. -/
def wlower (s : String) : String := String.mk (s.data.map Char.toLower)

/-- Case-insensitive key equality used by the node-map comparator. -/
def nocaseEq (a b : String) : Bool := wlower a == wlower b

/-- The name-to-node registry m_nameToNodeMap: entries in map order. -/
abbrev Registry := List (String × NodeId)

/-- Lookup in the registry with the case-insensitive comparator
(models m_nameToNodeMap.find(name)). -/
def mapFind (m : Registry) (name : String) : Option NodeId :=
  (m.find? (fun p => nocaseEq p.1 name)).map (fun p => p.2)

/-- Well-formedness of the registry: a std::map holds pairwise distinct keys
(distinct under the nocase comparator). -/
def NocaseDistinct (m : Registry) : Prop :=
  m.Pairwise (fun p q => wlower p.1 ≠ wlower q.1)

/-- NodeNameExist (ComputationNetwork.h lines 383-387): a name exists when
the map lookup succeeds. -/
def nodeNameExist (m : Registry) (name : String) : Bool :=
  (mapFind m name).isSome

/-- AddNodeToNet (ComputationNetwork.h lines 625-634): raise a duplicate
error when the name is found, otherwise insert the node under its name. -/
def addNodeToNet (m : Registry) (nodeName : String) (nodePtr : NodeId) :
    Except String Registry :=
  if nodeNameExist m nodeName then
    Except.error "Duplicated computation node name."
  else
    Except.ok (m ++ [(nodeName, nodePtr)])

/-- State left in the member m_nameToNodeMap after AddNodeToNet: the C++
RuntimeError throws before any mutation, so on error the registry member is
unchanged. -/
def runAddNodeToNet (m : Registry) (nodeName : String) (nodePtr : NodeId) :
    Registry :=
  match addNodeToNet m nodeName nodePtr with
  | Except.ok m2 => m2
  | Except.error _ => m

/-- GetNodeFromName (ComputationNetwork.h lines 389-405).  The delegated
call on anotherNetwork uses the default arguments (no further fallback,
bPanic = true), which the second match arm reproduces. -/
def getNodeFromName (m : Registry) (name : String)
    (anotherNetwork : Option Registry) (bPanic : Bool) :
    Except Unit (Option NodeId) :=
  match mapFind m name with
  | some node => Except.ok (some node)
  | none =>
    match anotherNetwork with
    | some m2 =>
      match mapFind m2 name with
      | some node => Except.ok (some node)
      | none => Except.error ()
    | none => if bPanic then Except.error () else Except.ok none

theorem mapFind_isSome_iff (m : Registry) (name : String) :
    nodeNameExist m name = true ↔ ∃ p ∈ m, wlower p.1 = wlower name := by
  unfold nodeNameExist mapFind
  constructor
  · intro h
    cases hf : m.find? (fun p => nocaseEq p.1 name) with
    | none => rw [hf] at h; simp at h
    | some p =>
      have hmem := List.mem_of_find?_eq_some hf
      have hpred := List.find?_some hf
      exact ⟨p, hmem, by simpa [nocaseEq] using hpred⟩
  · rintro ⟨p, hmem, heq⟩
    have h : (m.find? (fun p => nocaseEq p.1 name)).isSome :=
      List.find?_isSome.mpr ⟨p, hmem, by simpa [nocaseEq] using heq⟩
    cases hf : m.find? (fun p => nocaseEq p.1 name) with
    | none => rw [hf] at h; simp at h
    | some p => simp [hf]

/-- When the registry keys are pairwise nocase-distinct and it holds the
entry (storedName, v), any nocase-equal query finds exactly v. -/
theorem mapFind_of_mem (m : Registry) (storedName query : String) (v : NodeId)
    (hwf : NocaseDistinct m) (hmem : (storedName, v) ∈ m)
    (hcase : wlower query = wlower storedName) :
    mapFind m query = some v := by
  induction m with
  | nil => cases hmem
  | cons p rest ih =>
    rcases List.mem_cons.mp hmem with heq | htail
    · subst heq
      have hpos : nocaseEq (storedName, v).1 query = true := by
        simp [nocaseEq, hcase]
      simp [mapFind, List.find?, hpos]
    · have hne : wlower p.1 ≠ wlower storedName :=
        (List.pairwise_cons.mp hwf).1 (storedName, v) htail
      have hstep : nocaseEq p.1 query = false := by
        simp only [nocaseEq, beq_eq_false_iff_ne, ne_eq, hcase]
        exact hne
      have hskip : mapFind (p :: rest) query = mapFind rest query := by
        simp [mapFind, List.find?, hstep]
      rw [hskip]
      exact ih (List.pairwise_cons.mp hwf).2 htail

/-- C4: AddNodeToNet raises the duplicate-name error exactly when a node
with the same name (case-insensitively) is already registered; on error the
registry is unchanged (atomicity), otherwise it gains exactly the one new
entry under the node's name. -/
theorem c4_addNodeToNet_duplicate (m : Registry) (nodeName : String)
    (nodePtr : NodeId) :
    ((∃ e, addNodeToNet m nodeName nodePtr = Except.error e) ↔
      ∃ p ∈ m, wlower p.1 = wlower nodeName) ∧
    (nodeNameExist m nodeName = true →
      runAddNodeToNet m nodeName nodePtr = m) ∧
    (nodeNameExist m nodeName = false →
      addNodeToNet m nodeName nodePtr = Except.ok (m ++ [(nodeName, nodePtr)])) := by
  refine ⟨?_, ?_, ?_⟩
  · rw [← mapFind_isSome_iff]
    constructor
    · rintro ⟨e, he⟩
      by_contra hni
      have hfalse : nodeNameExist m nodeName = false := by
        cases h : nodeNameExist m nodeName with
        | true => exact absurd h hni
        | false => rfl
      rw [addNodeToNet, hfalse] at he
      simp at he
    · intro h
      exact ⟨"Duplicated computation node name.", by rw [addNodeToNet, h]; rfl⟩
  · intro h
    rw [runAddNodeToNet, addNodeToNet, h]
    rfl
  · intro h
    rw [addNodeToNet, h]
    rfl

/-- C4 witness: concrete instantiations of the duplicate and success cases. -/
theorem c4_addNodeToNet_duplicate_witness :
    (nodeNameExist [("Foo", 7)] "fOO" = true ∧
      runAddNodeToNet [("Foo", 7)] "fOO" 8 = [("Foo", 7)]) ∧
    (nodeNameExist [("Foo", 7)] "Bar" = false ∧
      addNodeToNet [("Foo", 7)] "Bar" 8 = Except.ok [("Foo", 7), ("Bar", 8)]) :=
  ⟨⟨by decide, (c4_addNodeToNet_duplicate [("Foo", 7)] "fOO" 8).2.1 (by decide)⟩,
   ⟨by decide, (c4_addNodeToNet_duplicate [("Foo", 7)] "Bar" 8).2.2 (by decide)⟩⟩

/-- C8: lookups in the registry are case-insensitive: for a registered node
and any name differing only in letter case, NodeNameExist is true,
GetNodeFromName returns that same node, and AddNodeToNet rejects the
case-variant name, so two nodes whose names differ only in case cannot
coexist. -/
theorem c8_nocase_lookup (m : Registry) (storedName query : String)
    (v : NodeId) (hwf : NocaseDistinct m) (hmem : (storedName, v) ∈ m)
    (hcase : wlower query = wlower storedName) :
    nodeNameExist m query = true ∧
    getNodeFromName m query none true = Except.ok (some v) ∧
    ∀ v2, addNodeToNet m query v2 =
      Except.error "Duplicated computation node name." := by
  have hfind : mapFind m query = some v :=
    mapFind_of_mem m storedName query v hwf hmem hcase
  have hexist : nodeNameExist m query = true := by
    rw [nodeNameExist, hfind]; rfl
  refine ⟨hexist, ?_, ?_⟩
  · rw [getNodeFromName.eq_def, hfind]
  · intro v2
    rw [addNodeToNet, hexist]
    rfl

/-- C8 witness: the name fOO finds the node registered as Foo, and a second
node under the case-variant name is rejected. -/
theorem c8_nocase_lookup_witness :
    NocaseDistinct [("Foo", 7)] ∧ ("Foo", 7) ∈ [("Foo", 7)] ∧
    wlower "fOO" = wlower "Foo" ∧
    (nodeNameExist [("Foo", 7)] "fOO" = true ∧
      getNodeFromName [("Foo", 7)] "fOO" none true = Except.ok (some 7) ∧
      ∀ v2, addNodeToNet [("Foo", 7)] "fOO" v2 =
        Except.error "Duplicated computation node name.") :=
  ⟨by constructor <;> simp, by decide, by decide,
   c8_nocase_lookup [("Foo", 7)] "Foo" "fOO" 7
     (by constructor <;> simp) (by decide) (by decide)⟩

/-- C7 is falsified by the code: with a fallback network configured and the
name absent from both networks, the delegated lookup runs with the default
bPanic = true and raises, even though the outer call had bPanic = false and
a fallback was configured; the claim predicts no error in that case. -/
theorem c7_counterexample :
    getNodeFromName [] "x" (some []) false = Except.error () ∧
    ¬(mapFind ([] : Registry) "x" = none ∧
      (some ([] : Registry)) = none ∧ (false : Bool) = true) := by
  constructor
  · rfl
  · rintro ⟨-, h, -⟩
    cases h

/-- C7 (amended): GetNodeFromName returns the registered node when the name
exists; otherwise it delegates to anotherNetwork when one is configured,
and it raises an unknown-node error iff the name is absent here and either
a fallback is configured but also lacks the name (the delegated call always
panics), or no fallback is configured and bPanic is true; with no fallback
and bPanic false it returns null.  The registry is unchanged in every case
(the operation is read-only). -/
theorem c7_getNodeFromName_amended (m : Registry) (name : String)
    (anotherNetwork : Option Registry) (bPanic : Bool) :
    ((∃ e, getNodeFromName m name anotherNetwork bPanic = Except.error e) ↔
      (mapFind m name = none ∧
        ((∃ m2, anotherNetwork = some m2 ∧ mapFind m2 name = none) ∨
          (anotherNetwork = none ∧ bPanic = true)))) ∧
    (∀ v, mapFind m name = some v →
      getNodeFromName m name anotherNetwork bPanic = Except.ok (some v)) ∧
    (∀ m2 v, mapFind m name = none → anotherNetwork = some m2 →
      mapFind m2 name = some v →
      getNodeFromName m name anotherNetwork bPanic = Except.ok (some v)) ∧
    (mapFind m name = none → anotherNetwork = none → bPanic = false →
      getNodeFromName m name anotherNetwork bPanic = Except.ok none) := by
  refine ⟨?_, ?_, ?_, ?_⟩
  · constructor
    · rintro ⟨e, he⟩
      rw [getNodeFromName.eq_def] at he
      cases hm : mapFind m name with
      | some v => simp [hm] at he
      | none =>
        simp only [hm] at he
        refine ⟨rfl, ?_⟩
        cases han : anotherNetwork with
        | some m2 =>
          simp only [han] at he
          cases hm2 : mapFind m2 name with
          | some v => simp [hm2] at he
          | none => exact Or.inl ⟨m2, rfl, hm2⟩
        | none =>
          simp only [han] at he
          cases hb : bPanic with
          | true => exact Or.inr ⟨rfl, rfl⟩
          | false => simp [hb] at he
    · rintro ⟨hm, hrest⟩
      refine ⟨(), ?_⟩
      rcases hrest with ⟨m2, han, hm2⟩ | ⟨han, hb⟩
      · simp [getNodeFromName.eq_def, hm, han, hm2]
      · simp [getNodeFromName.eq_def, hm, han, hb]
  · intro v hv
    simp [getNodeFromName.eq_def, hv]
  · intro m2 v hm han hm2
    simp [getNodeFromName.eq_def, hm, han, hm2]
  · intro hm han hb
    simp [getNodeFromName.eq_def, hm, han, hb]

/-- C7 witness for the amended statement: found locally; found in the
fallback; error with no fallback and bPanic; null with bPanic false. -/
theorem c7_getNodeFromName_amended_witness :
    getNodeFromName [("A", 1)] "A" none true = Except.ok (some 1) ∧
    getNodeFromName [] "A" (some [("A", 1)]) false = Except.ok (some 1) ∧
    (∃ e, getNodeFromName [] "A" none true = Except.error e) ∧
    getNodeFromName [] "A" none false = Except.ok none :=
  ⟨(c7_getNodeFromName_amended [("A", 1)] "A" none true).2.1 1 (by decide),
   (c7_getNodeFromName_amended [] "A" (some [("A", 1)]) false).2.2.1
     [("A", 1)] 1 (by decide) rfl (by decide),
   ((c7_getNodeFromName_amended [] "A" none true).1).mpr
     ⟨by decide, Or.inr ⟨rfl, rfl⟩⟩,
   (c7_getNodeFromName_amended [] "A" none false).2.2.2
     (by decide) rfl rfl⟩

/-- Value of std::wstring::npos, the size_t -1. -/
def NPOS : Nat := 2 ^ 64 - 1

/-- Unsigned size_t subtraction modulo 2^64, as computed by
nodeName.size() - tail.size() in C++ (underflows when tail is longer). -/
def sizeTSub (a b : Nat) : Nat := (2 ^ 64 + a - b) % 2 ^ 64

/-- find_first_of for a single character: index of the first occurrence or
npos. -/
def findFirstOf (s : List Char) (c : Char) : Nat :=
  match s with
  | [] => NPOS
  | a :: t =>
    if a = c then 0
    else
      let r := findFirstOf t c
      if r = NPOS then NPOS else r + 1

/-- Helper for wstring::find: first index at or after i where pat occurs. -/
def strFindAux (pat : List Char) : List Char → Nat → Nat
  | [], i => if pat.isPrefixOf ([] : List Char) then i else NPOS
  | c :: t, i => if pat.isPrefixOf (c :: t) then i else strFindAux pat t (i + 1)

/-- wstring::find(pat): index of the first occurrence of pat, or npos. -/
def strFind (s pat : List Char) : Nat := strFindAux pat s 0

/-- wstring::rfind(pat): index of the last occurrence of pat, or npos. -/
def strRfind (s pat : List Char) : Nat :=
  match ((List.range (s.length + 1)).filter
      (fun i => pat.isPrefixOf (s.drop i))).getLast? with
  | some i => i
  | none => NPOS

/-- GetNodesFromName (ComputationNetwork.h lines 411-436): without a star
the result is the (at most one) node registered under the name; with a
star, every registered name matching find(head) == 0 and
rfind(tail) == size - tail.size() is collected, where the subtraction is
the unsigned size_t one. -/
def getNodesFromName (m : Registry) (name : String) : List NodeId :=
  let found := findFirstOf name.data '*'
  if found = NPOS then
    if nodeNameExist m name then
      match mapFind m name with
      | some n => [n]
      | none => []
    else []
  else
    let head := name.data.take found
    let tail := name.data.drop (found + 1)
    m.filterMap (fun p =>
      let nodeName := p.1.data
      let headMatch := head.isEmpty || (strFind nodeName head == 0)
      let tailMatch := tail.isEmpty ||
        (strRfind nodeName tail == sizeTSub nodeName.length tail.length)
      if headMatch && tailMatch then some p.2 else none)

/-- C9 exposes a slip in GetNodesFromName: for the pattern *abc and a
registered node named ab, tail.size() exceeds the name length by one, the
size_t subtraction underflows to npos, rfind also returns npos, and the
name is reported as a match although it does not end in abc.  The claim
(only names starting with head and ending with tail match) is the
documented intent of the code. -/
theorem c9_getNodesFromName_underflow_bug :
    getNodesFromName [("ab", 1)] "*abc" = [1] ∧
    ¬("ab".data.drop ("ab".length - "abc".length) = "abc".data) := by
  constructor
  · decide
  · decide

/-- The node graph: the set of node objects owned by the network and the
input (child) pointers of each node.  Nodes are identifiers; inputs of
nodes outside the network are irrelevant under Graph.Closed. -/
structure Graph where
  nodes : List NodeId
  inputs : NodeId → List NodeId

/-- One dependency step: b is an input of a. -/
def stepRel (g : Graph) (a b : NodeId) : Prop := b ∈ g.inputs a

/-- Dependency reachability along input pointers. -/
def Reaches (g : Graph) : NodeId → NodeId → Prop :=
  Relation.ReflTransGen (stepRel g)

/-- The graph is closed: inputs of owned nodes are owned nodes. -/
def Graph.Closed (g : Graph) : Prop :=
  ∀ v ∈ g.nodes, ∀ i ∈ g.inputs v, i ∈ g.nodes

/-- A node lies on a dependency cycle: some input of it reaches back. -/
def OnCycle (g : Graph) (v : NodeId) : Prop :=
  ∃ i ∈ g.inputs v, Reaches g i v

/-- Modelled from the spec: ComputationNodeBase::EnumerateNodes is not
under src; per spec section 4.3 the order is a depth-first post-order
traversal from the root, visiting inputs before the node itself, with a
visited set.  State is (visited, order); the fuel bounds the recursion
depth and is sufficient whenever it exceeds the number of unvisited owned
nodes. -/
def enumerateNodesR (g : Graph) :
    Nat → List NodeId × List NodeId → NodeId → List NodeId × List NodeId
  | 0, st, _ => st
  | fuel + 1, st, cur =>
    if cur ∈ st.1 then st
    else
      let st2 := (g.inputs cur).foldl (enumerateNodesR g fuel) (cur :: st.1, st.2)
      (st2.1, st2.2 ++ [cur])

/-- Modelled from the spec: EnumerateNodes(forwardCompute, skipPairNetwork).
Forward order is the depth-first post-order; the backward order is its
reverse (spec section 4.3: the gradient order is conceptually the reverse
of the forward order).  The spec does not define an effect for
skipPairNetwork, so the flag is carried but has none. -/
def enumerateNodes (g : Graph) (forwardCompute _skipPairNetwork : Bool)
    (root : NodeId) : List NodeId :=
  let st := enumerateNodesR g (g.nodes.length + 1) ([], []) root
  if forwardCompute then st.2 else st.2.reverse

/-- A cached order map (m_cacheEvalOrders / m_cacheGradientCalcOrders),
keyed by root node identity. -/
abbrev OrderMap := List (NodeId × List NodeId)

/-- Lookup of a root in an order map. -/
def orderMapFind (omap : OrderMap) (root : NodeId) : Option (List NodeId) :=
  (omap.find? (fun p => p.1 == root)).map (fun p => p.2)

/-- GetCalcOrder (ComputationNetwork.h lines 220-227): on a miss the order
is computed by EnumerateNodes and inserted; the stored entry is returned. -/
def getCalcOrder (g : Graph) (root : NodeId) (omap : OrderMap)
    (forwardCompute skipPairNetwork : Bool) : List NodeId × OrderMap :=
  match orderMapFind omap root with
  | some l => (l, omap)
  | none =>
    let l := enumerateNodes g forwardCompute skipPairNetwork root
    (l, omap ++ [(root, l)])

/-- The mutable state of a ComputationNetwork that the traversal claims
touch: graph, name registry, and the caches cleared by ClearCaches. -/
structure Net where
  graph : Graph
  nameToNodeMap : Registry
  built : List NodeId
  inputValues : OrderMap
  learnableParameters : OrderMap
  cacheEvalOrders : OrderMap
  cacheGradientCalcOrders : OrderMap
  cachedOuterLoopNodes : List (NodeId × NodeId)
  recurrentInfo : List (List NodeId)

/-- GetEvalOrder (ComputationNetwork.h lines 206-209): GetCalcOrder on
m_cacheEvalOrders with forwardCompute = true. -/
def getEvalOrder (s : Net) (root : NodeId) (skipPairNetwork : Bool) :
    List NodeId × Net :=
  let r := getCalcOrder s.graph root s.cacheEvalOrders true skipPairNetwork
  (r.1, { s with cacheEvalOrders := r.2 })

/-- GetGradientCalcOrder (ComputationNetwork.h lines 213-216): GetCalcOrder
on m_cacheGradientCalcOrders with forwardCompute = false. -/
def getGradientCalcOrder (s : Net) (root : NodeId) : List NodeId × Net :=
  let r := getCalcOrder s.graph root s.cacheGradientCalcOrders false false
  (r.1, { s with cacheGradientCalcOrders := r.2 })

/-- Modelled from the spec: ClearCalcOrderCaches is declared at line 186
but its body is not under src; per spec sections 4.3 and 8, it invalidates
all cached orders and loop-detection results. -/
def clearCalcOrderCaches (s : Net) : Net :=
  { s with cacheEvalOrders := [], cacheGradientCalcOrders := [],
           cachedOuterLoopNodes := [], recurrentInfo := [] }

/-- ClearCaches (ComputationNetwork.h lines 371-377): clears m_built,
m_inputValues, m_learnableParameters and calls ClearCalcOrderCaches. -/
def clearCaches (s : Net) : Net :=
  clearCalcOrderCaches
    { s with built := [], inputValues := [], learnableParameters := [] }

/-- Modelled from the spec: the bodies of the edit operations (DeleteNode,
RenameNode, ChangeNode, ...) are not under src; per the header comment at
line 370 and spec section 4.3 every model-editing operation calls
ClearCaches after changing the graph and registry. -/
def applyGraphEdit (s : Net) (g2 : Graph) (r2 : Registry) : Net :=
  clearCaches { s with graph := g2, nameToNodeMap := r2 }

theorem orderMapFind_append_self (omap : OrderMap) (root : NodeId)
    (l : List NodeId) (h : orderMapFind omap root = none) :
    orderMapFind (omap ++ [(root, l)]) root = some l := by
  induction omap with
  | nil => simp [orderMapFind, List.find?]
  | cons p rest ih =>
    by_cases hp : p.1 = root
    · exfalso
      have : orderMapFind (p :: rest) root = some p.2 := by
        simp [orderMapFind, List.find?, hp]
      rw [h] at this
      cases this
    · have hskip : (p.1 == root) = false := beq_eq_false_iff_ne.mpr hp
      have h2 : orderMapFind rest root = none := by
        rw [orderMapFind.eq_def] at h ⊢
        rw [List.find?] at h
        rw [hskip] at h
        exact h
      have := ih h2
      rw [orderMapFind.eq_def] at this ⊢
      rw [List.cons_append, List.find?, hskip]
      exact this

/-- C2: the order caches memoize per root: a hit returns the stored list
unchanged (whatever it is, not a recomputation) and leaves the state
untouched, and hence a second GetEvalOrder or GetGradientCalcOrder call
with no intervening edit returns exactly the list and state of the first
call. -/
theorem c2_calcOrder_memoized (s : Net) (root : NodeId)
    (skipPairNetwork : Bool) :
    (∀ l, orderMapFind s.cacheEvalOrders root = some l →
      getEvalOrder s root skipPairNetwork = (l, s)) ∧
    (∀ l, orderMapFind s.cacheGradientCalcOrders root = some l →
      getGradientCalcOrder s root = (l, s)) ∧
    (getEvalOrder (getEvalOrder s root skipPairNetwork).2 root skipPairNetwork =
      getEvalOrder s root skipPairNetwork) ∧
    (getGradientCalcOrder (getGradientCalcOrder s root).2 root =
      getGradientCalcOrder s root) := by
  have hhitE : ∀ (t : Net) l, orderMapFind t.cacheEvalOrders root = some l →
      getEvalOrder t root skipPairNetwork = (l, t) := by
    intro t l hl
    show (let r := getCalcOrder t.graph root t.cacheEvalOrders true skipPairNetwork
      (r.1, { t with cacheEvalOrders := r.2 })) = (l, t)
    rw [getCalcOrder, hl]
  have hhitG : ∀ (t : Net) l,
      orderMapFind t.cacheGradientCalcOrders root = some l →
      getGradientCalcOrder t root = (l, t) := by
    intro t l hl
    show (let r := getCalcOrder t.graph root t.cacheGradientCalcOrders false false
      (r.1, { t with cacheGradientCalcOrders := r.2 })) = (l, t)
    rw [getCalcOrder, hl]
  refine ⟨fun l => hhitE s l, fun l => hhitG s l, ?_, ?_⟩
  · cases hl : orderMapFind s.cacheEvalOrders root with
    | some l =>
      rw [hhitE s l hl]
      exact hhitE s l hl
    | none =>
      have h1 : getEvalOrder s root skipPairNetwork =
          (enumerateNodes s.graph true skipPairNetwork root,
           { s with cacheEvalOrders := s.cacheEvalOrders ++
               [(root, enumerateNodes s.graph true skipPairNetwork root)] }) := by
        show (let r := getCalcOrder s.graph root s.cacheEvalOrders true skipPairNetwork
          (r.1, { s with cacheEvalOrders := r.2 })) = _
        rw [getCalcOrder, hl]
      rw [h1]
      exact hhitE _ _ (orderMapFind_append_self _ root _ hl)
  · cases hl : orderMapFind s.cacheGradientCalcOrders root with
    | some l =>
      rw [hhitG s l hl]
      exact hhitG s l hl
    | none =>
      have h1 : getGradientCalcOrder s root =
          (enumerateNodes s.graph false false root,
           { s with cacheGradientCalcOrders := s.cacheGradientCalcOrders ++
               [(root, enumerateNodes s.graph false false root)] }) := by
        show (let r := getCalcOrder s.graph root s.cacheGradientCalcOrders false false
          (r.1, { s with cacheGradientCalcOrders := r.2 })) = _
        rw [getCalcOrder, hl]
      rw [h1]
      exact hhitG _ _ (orderMapFind_append_self _ root _ hl)

/-- Scenario graph of spec section 8: three nodes A -> B -> C, with A = 0,
B = 1, C = 2 (the arrow is data flow, so C has input B and B has input A). -/
def chainGraph : Graph where
  nodes := [0, 1, 2]
  inputs := fun v => if v = 2 then [1] else if v = 1 then [0] else []

/-- A freshly built network over the scenario chain graph. -/
def chainNet : Net where
  graph := chainGraph
  nameToNodeMap := [("A", 0), ("B", 1), ("C", 2)]
  built := []
  inputValues := []
  learnableParameters := []
  cacheEvalOrders := []
  cacheGradientCalcOrders := []
  cachedOuterLoopNodes := []
  recurrentInfo := []

/-- The chain network with the caches for root C primed with marker lists,
to observe that hits return the stored entry. -/
def cachedChainNet : Net :=
  { chainNet with cacheEvalOrders := [(2, [9])],
                  cacheGradientCalcOrders := [(2, [8])] }

/-- C2 witness: on the primed caches both getters return the stored marker
lists (not a recomputation, which would yield [0, 1, 2] resp. [2, 1, 0])
and leave the network untouched. -/
theorem c2_calcOrder_memoized_witness :
    orderMapFind cachedChainNet.cacheEvalOrders 2 = some [9] ∧
    getEvalOrder cachedChainNet 2 false = ([9], cachedChainNet) ∧
    getGradientCalcOrder cachedChainNet 2 = ([8], cachedChainNet) :=
  ⟨rfl, (c2_calcOrder_memoized cachedChainNet 2 false).1 [9] rfl,
   (c2_calcOrder_memoized cachedChainNet 2 false).2.1 [8] rfl⟩

/-- C6: on caches that do not yet hold the root, the gradient calculation
order is the reverse of the evaluation order; on the A -> B -> C chain the
evaluation order for root C is [A, B, C] and the gradient order is
[C, B, A]. -/
theorem c6_gradient_reverse_of_eval :
    (∀ (s : Net) (root : NodeId) (skipPairNetwork : Bool),
      orderMapFind s.cacheEvalOrders root = none →
      orderMapFind s.cacheGradientCalcOrders root = none →
      (getGradientCalcOrder s root).1 =
        ((getEvalOrder s root skipPairNetwork).1).reverse) ∧
    (getEvalOrder chainNet 2 false).1 = [0, 1, 2] ∧
    (getGradientCalcOrder chainNet 2).1 = [2, 1, 0] := by
  refine ⟨?_, by decide, by decide⟩
  intro s root skipPairNetwork hE hG
  show (getCalcOrder s.graph root s.cacheGradientCalcOrders false false).1 =
    ((getCalcOrder s.graph root s.cacheEvalOrders true skipPairNetwork).1).reverse
  rw [getCalcOrder, getCalcOrder, hE, hG]
  rfl

/-- C6 witness: the general reversal statement applied to the fresh chain
network at root C. -/
theorem c6_gradient_reverse_of_eval_witness :
    orderMapFind chainNet.cacheEvalOrders 2 = none ∧
    (getGradientCalcOrder chainNet 2).1 =
      ((getEvalOrder chainNet 2 false).1).reverse :=
  ⟨rfl, c6_gradient_reverse_of_eval.1 chainNet 2 false rfl rfl⟩

theorem length_filter_le_of_imp {α : Type} {p q : α → Bool} :
    ∀ l : List α, (∀ x ∈ l, q x = true → p x = true) →
      (l.filter q).length ≤ (l.filter p).length := by
  intro l
  induction l with
  | nil => intro _; simp
  | cons a t ih =>
    intro h
    have ht := ih (fun x hx => h x (List.mem_cons_of_mem a hx))
    by_cases hq : q a = true <;> by_cases hp : p a = true
    · simp [List.filter_cons, hq, hp]
      omega
    · exact absurd (h a (List.mem_cons_self a t) hq) hp
    · simp [List.filter_cons, hq, hp]
      omega
    · simp [List.filter_cons, hq, hp]
      omega

theorem length_filter_lt_of_witness {α : Type} {p q : α → Bool} :
    ∀ l : List α, (∀ x ∈ l, q x = true → p x = true) →
      ∀ x0 ∈ l, p x0 = true → q x0 = false →
      (l.filter q).length < (l.filter p).length := by
  intro l
  induction l with
  | nil => intro _ x0 hx0; cases hx0
  | cons a t ih =>
    intro h x0 hx0 hp0 hq0
    have himp := fun x hx => h x (List.mem_cons_of_mem a hx)
    rcases List.mem_cons.mp hx0 with rfl | hx0t
    · have hle := length_filter_le_of_imp t himp
      simp [List.filter_cons, hq0, hp0]
      omega
    · have ht := ih himp x0 hx0t hp0 hq0
      by_cases hq : q a = true <;> by_cases hp : p a = true
      · simp [List.filter_cons, hq, hp]
        omega
      · exact absurd (h a (List.mem_cons_self a t) hq) hp
      · simp [List.filter_cons, hq, hp]
        omega
      · simp [List.filter_cons, hq, hp]
        omega

/-- Number of owned nodes not yet visited; the DFS fuel bound. -/
def unvisitedCount (g : Graph) (visited : List NodeId) : Nat :=
  (g.nodes.dedup.filter (fun v => decide (v ∉ visited))).length

theorem unvisitedCount_le (g : Graph) {v1 v2 : List NodeId}
    (h : ∀ x ∈ v1, x ∈ v2) : unvisitedCount g v2 ≤ unvisitedCount g v1 := by
  apply length_filter_le_of_imp
  intro x _ hq
  simp only [decide_eq_true_eq] at hq ⊢
  exact fun hx1 => hq (h x hx1)

theorem unvisitedCount_cons_lt (g : Graph) (visited : List NodeId)
    (cur : NodeId) (hn : cur ∈ g.nodes) (hnv : cur ∉ visited) :
    unvisitedCount g (cur :: visited) < unvisitedCount g visited := by
  apply length_filter_lt_of_witness _ _ cur (List.mem_dedup.mpr hn)
  · simpa using hnv
  · simp
  · intro x _ hq
    simp only [decide_eq_true_eq] at hq ⊢
    intro hx1
    exact hq (List.mem_cons_of_mem cur hx1)

theorem unvisitedCount_nil_lt (g : Graph) :
    unvisitedCount g [] < g.nodes.length + 1 := by
  have h1 : unvisitedCount g [] ≤ g.nodes.dedup.length := by
    unfold unvisitedCount
    exact List.length_filter_le _ _
  have h2 : g.nodes.dedup.length ≤ g.nodes.length :=
    List.Sublist.length_le (List.dedup_sublist _)
  omega

theorem snoc_eq_append_cons {α : Type} (l : List α) (a : α) (l1 : List α)
    (n : α) (l2 : List α) (h : l ++ [a] = l1 ++ n :: l2) :
    (l1 = l ∧ n = a ∧ l2 = []) ∨ ∃ l3, l2 = l3 ++ [a] ∧ l = l1 ++ n :: l3 := by
  rcases List.eq_nil_or_concat l2 with h2 | ⟨l3, b, rfl⟩
  · subst h2
    have hlen : ([a] : List α).length = (n :: ([] : List α)).length := by simp
    obtain ⟨he1, he2⟩ := List.append_inj' h (by simp)
    exact Or.inl ⟨he1.symm, by simpa using he2.symm, rfl⟩
  · have h2 : l ++ [a] = (l1 ++ n :: l3) ++ [b] := by
      simpa [List.append_assoc] using h
    obtain ⟨he1, he2⟩ := List.append_inj' h2 (by simp)
    have hba : b = a := by simpa using he2.symm
    refine Or.inr ⟨l3, ?_, he1⟩
    rw [hba]
    exact List.concat_eq_append _ _

/-- Invariant of the DFS state (visited, order): the order has no
duplicates, lies inside the visited set, every ordered node has all inputs
visited, and (on acyclic graphs) every input of an ordered node appears
earlier in the order or is still grey (visited but not yet ordered). -/
structure DfsOK (g : Graph) (visited order : List NodeId) : Prop where
  nodup : order.Nodup
  sub : ∀ x ∈ order, x ∈ visited
  inputsVisited : ∀ n ∈ order, ∀ i ∈ g.inputs n, i ∈ visited
  topo : (∀ v ∈ g.nodes, ¬ Relation.TransGen (stepRel g) v v) →
    ∀ l1 n l2, order = l1 ++ n :: l2 → ∀ i ∈ g.inputs n,
      i ∈ l1 ∨ (i ∈ visited ∧ i ∉ order)

/-- Precondition of one DFS call. -/
def EnumPre (g : Graph) (fuel : Nat) (visited order : List NodeId)
    (cur : NodeId) : Prop :=
  cur ∈ g.nodes ∧ (∀ x ∈ visited, x ∈ g.nodes) ∧
  unvisitedCount g visited < fuel ∧ DfsOK g visited order ∧
  (∀ a ∈ visited, a ∉ order → Reaches g a cur)

/-- Postcondition of one DFS call: the order grows by a block of new nodes
reachable from cur, the visited set grows by exactly that block, cur is
visited, and the invariant is maintained. -/
def EnumPost (g : Graph) (visited order : List NodeId) (cur : NodeId)
    (res : List NodeId × List NodeId) : Prop :=
  ∃ Δ, res.2 = order ++ Δ ∧
    (∀ x, x ∈ res.1 ↔ (x ∈ visited ∨ x ∈ Δ)) ∧
    (∀ x ∈ Δ, x ∉ visited) ∧
    (∀ x ∈ Δ, Reaches g cur x) ∧
    (∀ x ∈ Δ, x ∈ g.nodes) ∧
    cur ∈ res.1 ∧
    DfsOK g res.1 res.2

theorem enumFold_spec (g : Graph) (fuel : Nat)
    (hcall : ∀ visited order cur, EnumPre g fuel visited order cur →
      EnumPost g visited order cur (enumerateNodesR g fuel (visited, order) cur)) :
    ∀ (l : List NodeId) (v1 o1 : List NodeId),
      (∀ c ∈ l, c ∈ g.nodes) →
      (∀ x ∈ v1, x ∈ g.nodes) →
      unvisitedCount g v1 < fuel →
      DfsOK g v1 o1 →
      (∀ a ∈ v1, a ∉ o1 → ∀ c ∈ l, Reaches g a c) →
      ∃ Δ,
        (l.foldl (enumerateNodesR g fuel) (v1, o1)).2 = o1 ++ Δ ∧
        (∀ x, x ∈ (l.foldl (enumerateNodesR g fuel) (v1, o1)).1 ↔
          (x ∈ v1 ∨ x ∈ Δ)) ∧
        (∀ x ∈ Δ, x ∉ v1) ∧
        (∀ x ∈ Δ, ∃ c ∈ l, Reaches g c x) ∧
        (∀ x ∈ Δ, x ∈ g.nodes) ∧
        (∀ c ∈ l, c ∈ (l.foldl (enumerateNodesR g fuel) (v1, o1)).1) ∧
        DfsOK g (l.foldl (enumerateNodesR g fuel) (v1, o1)).1
          (l.foldl (enumerateNodesR g fuel) (v1, o1)).2 := by
  intro l
  induction l with
  | nil =>
    intro v1 o1 _ _ _ hok _
    exact ⟨[], by simp, by simp, by simp, by simp, by simp, by simp,
      by simpa using hok⟩
  | cons c t ih =>
    intro v1 o1 hln hv1 hfuel hok hgrey
    have hpre : EnumPre g fuel v1 o1 c :=
      ⟨hln c (List.mem_cons_self c t), hv1, hfuel, hok,
       fun a ha hao => hgrey a ha hao c (List.mem_cons_self c t)⟩
    obtain ⟨Δ1, heq1, hiff1, hdisj1, hreach1, hnodes1, hcv1, hok1⟩ :=
      hcall v1 o1 c hpre
    have hv2 : ∀ x ∈ (enumerateNodesR g fuel (v1, o1) c).1, x ∈ g.nodes := by
      intro x hx
      rcases (hiff1 x).mp hx with h | h
      · exact hv1 x h
      · exact hnodes1 x h
    have hsub12 : ∀ x ∈ v1, x ∈ (enumerateNodesR g fuel (v1, o1) c).1 :=
      fun x hx => (hiff1 x).mpr (Or.inl hx)
    have hfuel2 :
        unvisitedCount g (enumerateNodesR g fuel (v1, o1) c).1 < fuel :=
      lt_of_le_of_lt (unvisitedCount_le g hsub12) hfuel
    have hgrey2 : ∀ a ∈ (enumerateNodesR g fuel (v1, o1) c).1,
        a ∉ (enumerateNodesR g fuel (v1, o1) c).2 →
        ∀ c2 ∈ t, Reaches g a c2 := by
      intro a ha hao c2 hc2
      have hav1 : a ∈ v1 := by
        rcases (hiff1 a).mp ha with h | h
        · exact h
        · exact absurd (heq1 ▸ List.mem_append_right o1 h) hao
      have hao1 : a ∉ o1 := fun h => hao (heq1 ▸ List.mem_append_left Δ1 h)
      exact hgrey a hav1 hao1 c2 (List.mem_cons_of_mem c hc2)
    obtain ⟨Δ2, heq2, hiff2, hdisj2, hreach2, hnodes2, hchild2, hok2⟩ :=
      ih (enumerateNodesR g fuel (v1, o1) c).1
        (enumerateNodesR g fuel (v1, o1) c).2
        (fun c2 hc2 => hln c2 (List.mem_cons_of_mem c hc2))
        hv2 hfuel2 hok1 hgrey2
    have hfoldstep : (c :: t).foldl (enumerateNodesR g fuel) (v1, o1) =
        t.foldl (enumerateNodesR g fuel)
          ((enumerateNodesR g fuel (v1, o1) c).1,
           (enumerateNodesR g fuel (v1, o1) c).2) := by
      rw [List.foldl_cons]
    refine ⟨Δ1 ++ Δ2, ?_, ?_, ?_, ?_, ?_, ?_, ?_⟩
    · rw [hfoldstep, heq2, heq1, List.append_assoc]
    · intro x
      rw [hfoldstep, hiff2 x, hiff1 x, List.mem_append]
      tauto
    · intro x hx
      rcases List.mem_append.mp hx with h | h
      · exact hdisj1 x h
      · exact fun hxv => hdisj2 x h ((hiff1 x).mpr (Or.inl hxv))
    · intro x hx
      rcases List.mem_append.mp hx with h | h
      · exact ⟨c, List.mem_cons_self c t, hreach1 x h⟩
      · obtain ⟨c2, hc2, hr2⟩ := hreach2 x h
        exact ⟨c2, List.mem_cons_of_mem c hc2, hr2⟩
    · intro x hx
      rcases List.mem_append.mp hx with h | h
      · exact hnodes1 x h
      · exact hnodes2 x h
    · intro c2 hc2
      rw [hfoldstep]
      rcases List.mem_cons.mp hc2 with rfl | hc2t
      · exact (hiff2 c2).mpr (Or.inl hcv1)
      · exact hchild2 c2 hc2t
    · rw [hfoldstep]
      exact hok2

theorem enumR_spec (g : Graph) (hcl : g.Closed) :
    ∀ (fuel : Nat) (visited order : List NodeId) (cur : NodeId),
      EnumPre g fuel visited order cur →
      EnumPost g visited order cur
        (enumerateNodesR g fuel (visited, order) cur) := by
  intro fuel
  induction fuel with
  | zero =>
    intro visited order cur hpre
    exact absurd hpre.2.2.1 (Nat.not_lt_zero _)
  | succ fuel ih =>
    intro visited order cur hpre
    obtain ⟨hcur, hvn, hfuel, hok, hgrey⟩ := hpre
    by_cases hv : cur ∈ visited
    · have hres : enumerateNodesR g (fuel + 1) (visited, order) cur =
          (visited, order) := by
        simp [enumerateNodesR, hv]
      refine ⟨[], ?_, ?_, by simp, by simp, by simp, ?_, ?_⟩
      · rw [hres]; simp
      · rw [hres]; simp
      · rw [hres]; exact hv
      · rw [hres]; exact hok
    · have hres : enumerateNodesR g (fuel + 1) (visited, order) cur =
          (((g.inputs cur).foldl (enumerateNodesR g fuel)
              (cur :: visited, order)).1,
           ((g.inputs cur).foldl (enumerateNodesR g fuel)
              (cur :: visited, order)).2 ++ [cur]) := by
        simp [enumerateNodesR, hv]
      have hlc : ∀ c ∈ g.inputs cur, c ∈ g.nodes := hcl cur hcur
      have hv1 : ∀ x ∈ cur :: visited, x ∈ g.nodes := by
        intro x hx
        rcases List.mem_cons.mp hx with rfl | hxv
        · exact hcur
        · exact hvn x hxv
      have hfuel1 : unvisitedCount g (cur :: visited) < fuel := by
        have h1 := unvisitedCount_cons_lt g visited cur hcur hv
        omega
      have hok1 : DfsOK g (cur :: visited) order := by
        refine ⟨hok.nodup, ?_, ?_, ?_⟩
        · exact fun x hx => List.mem_cons_of_mem cur (hok.sub x hx)
        · exact fun n hn i hi =>
            List.mem_cons_of_mem cur (hok.inputsVisited n hn i hi)
        · intro hA l1 n l2 hsplit i hi
          exact (hok.topo hA l1 n l2 hsplit i hi).imp id
            (fun h => ⟨List.mem_cons_of_mem cur h.1, h.2⟩)
      have hgrey1 : ∀ a ∈ cur :: visited, a ∉ order →
          ∀ c ∈ g.inputs cur, Reaches g a c := by
        intro a ha hao c hc
        rcases List.mem_cons.mp ha with rfl | hav
        · exact Relation.ReflTransGen.single hc
        · exact Relation.ReflTransGen.tail (hgrey a hav hao) hc
      obtain ⟨Δ1, heq1, hiff1, hdisj1, hreach1, hnodes1, hchild1, hokf⟩ :=
        enumFold_spec g fuel ih (g.inputs cur) (cur :: visited) order
          hlc hv1 hfuel1 hok1 hgrey1
      have hcurnotin : cur ∉
          ((g.inputs cur).foldl (enumerateNodesR g fuel)
            (cur :: visited, order)).2 := by
        rw [heq1]
        intro hmem
        rcases List.mem_append.mp hmem with h | h
        · exact hv (hok.sub cur h)
        · exact hdisj1 cur h (List.mem_cons_self cur visited)
      have hcurin : cur ∈
          ((g.inputs cur).foldl (enumerateNodesR g fuel)
            (cur :: visited, order)).1 :=
        (hiff1 cur).mpr (Or.inl (List.mem_cons_self cur visited))
      refine ⟨Δ1 ++ [cur], ?_, ?_, ?_, ?_, ?_, ?_, ?_⟩
      · rw [hres, heq1, List.append_assoc]
      · intro x
        rw [hres]
        show x ∈ ((g.inputs cur).foldl (enumerateNodesR g fuel)
          (cur :: visited, order)).1 ↔ _
        rw [hiff1 x, List.mem_append, List.mem_cons]
        simp only [List.mem_singleton]
        tauto
      · intro x hx
        rcases List.mem_append.mp hx with h | h
        · exact fun hxv =>
            hdisj1 x h (List.mem_cons_of_mem cur hxv)
        · rw [List.mem_singleton] at h
          subst h
          exact hv
      · intro x hx
        rcases List.mem_append.mp hx with h | h
        · obtain ⟨c, hc, hr⟩ := hreach1 x h
          exact Relation.ReflTransGen.head hc hr
        · rw [List.mem_singleton] at h
          subst h
          exact Relation.ReflTransGen.refl
      · intro x hx
        rcases List.mem_append.mp hx with h | h
        · exact hnodes1 x h
        · rw [List.mem_singleton] at h
          subst h
          exact hcur
      · rw [hres]
        exact hcurin
      · rw [hres]
        refine ⟨?_, ?_, ?_, ?_⟩
        · refine List.Nodup.append hokf.nodup (List.nodup_singleton cur) ?_
          intro x hx hx2
          rw [List.mem_singleton] at hx2
          subst hx2
          exact hcurnotin hx
        · intro x hx
          rcases List.mem_append.mp hx with h | h
          · exact hokf.sub x h
          · rw [List.mem_singleton] at h
            subst h
            exact hcurin
        · intro n hn i hi
          rcases List.mem_append.mp hn with h | h
          · exact hokf.inputsVisited n h i hi
          · rw [List.mem_singleton] at h
            subst h
            exact hchild1 i hi
        · intro hA l1 n l2 hsplit i hi
          rcases snoc_eq_append_cons _ cur l1 n l2 hsplit with
            ⟨hl1, hn, _⟩ | ⟨l3, _, hsplit2⟩
          · have hi2 : i ∈ g.inputs cur := hn ▸ hi
            rcases (hiff1 i).mp (hchild1 i hi2) with hic | hiΔ
            · rcases List.mem_cons.mp hic with hieq | hivis
              · exfalso
                rw [hieq] at hi2
                exact hA cur hcur (Relation.TransGen.single hi2)
              · by_cases hio : i ∈ order
                · left
                  rw [hl1, heq1]
                  exact List.mem_append_left Δ1 hio
                · right
                  constructor
                  · exact (hiff1 i).mpr (Or.inl (List.mem_cons_of_mem cur hivis))
                  · intro hmem
                    rcases List.mem_append.mp hmem with h | h
                    · rcases List.mem_append.mp (heq1 ▸ h) with h2 | h2
                      · exact hio h2
                      · exact hdisj1 i h2 (List.mem_cons_of_mem cur hivis)
                    · rw [List.mem_singleton] at h
                      subst h
                      exact hv hivis
            · left
              rw [hl1, heq1]
              exact List.mem_append_right order hiΔ
          · rcases hokf.topo hA l1 n l3 hsplit2 i hi with hil | ⟨hif, hnf⟩
            · exact Or.inl hil
            · have hine : i ≠ cur := by
                intro hie
                subst hie
                have hnmem : n ∈ order ++ Δ1 := by
                  rw [← heq1, hsplit2]
                  exact List.mem_append_right l1 (List.mem_cons_self n l3)
                rcases List.mem_append.mp hnmem with hno | hnd
                · exact hv (hok.inputsVisited n hno i hi)
                · obtain ⟨c, hc, hr⟩ := hreach1 n hnd
                  have hcurn : Reaches g i n := Relation.ReflTransGen.head hc hr
                  exact hA i hcur (Relation.TransGen.tail' hcurn hi)
              right
              refine ⟨hif, ?_⟩
              intro hmem
              rcases List.mem_append.mp hmem with h | h
              · exact hnf h
              · rw [List.mem_singleton] at h
                exact hine h

theorem enumerateNodes_spec (g : Graph) (hcl : g.Closed) (root : NodeId)
    (hr : root ∈ g.nodes) (skip : Bool) :
    (enumerateNodes g true skip root).Nodup ∧
    (∀ x ∈ enumerateNodes g true skip root, Reaches g root x ∧ x ∈ g.nodes) ∧
    (∀ n ∈ enumerateNodes g true skip root, ∀ i ∈ g.inputs n,
      i ∈ enumerateNodes g true skip root) ∧
    ((∀ v ∈ g.nodes, ¬ Relation.TransGen (stepRel g) v v) →
      ∀ l1 n l2, enumerateNodes g true skip root = l1 ++ n :: l2 →
        ∀ i ∈ g.inputs n, i ∈ l1) := by
  have hok0 : DfsOK g [] [] := by
    refine ⟨List.nodup_nil, by simp, by simp, ?_⟩
    intro _ l1 n l2 h
    exfalso
    exact List.cons_ne_nil n l2 (List.append_eq_nil.mp h.symm).2
  have hpre : EnumPre g (g.nodes.length + 1) [] [] root :=
    ⟨hr, by simp, unvisitedCount_nil_lt g, hok0, by simp⟩
  obtain ⟨Δ, heq, hiff, hdisj, hreach, hnodes, hcv, hokf⟩ :=
    enumR_spec g hcl (g.nodes.length + 1) [] [] root hpre
  have horder : enumerateNodes g true skip root =
      (enumerateNodesR g (g.nodes.length + 1) ([], []) root).2 := rfl
  have hmemΔ : ∀ x, x ∈ enumerateNodes g true skip root ↔ x ∈ Δ := by
    intro x
    rw [horder, heq]
    simp
  refine ⟨?_, ?_, ?_, ?_⟩
  · rw [horder]
    exact hokf.nodup
  · intro x hx
    have hxΔ := (hmemΔ x).mp hx
    exact ⟨hreach x hxΔ, hnodes x hxΔ⟩
  · intro n hn i hi
    have hiv : i ∈ (enumerateNodesR g (g.nodes.length + 1) ([], []) root).1 :=
      hokf.inputsVisited n (by rw [← horder]; exact hn) i hi
    rcases (hiff i).mp hiv with h | h
    · cases h
    · exact (hmemΔ i).mpr h
  · intro hA l1 n l2 hsplit i hi
    rcases hokf.topo hA l1 n l2 (by rw [← horder]; exact hsplit) i hi with
      h | ⟨hif, hnf⟩
    · exact h
    · exfalso
      rcases (hiff i).mp hif with h | h
      · cases h
      · exact hnf (by rw [heq]; simpa using h)

/-- C1: on an acyclic closed graph, the list returned by GetEvalOrder for a
root (computed fresh, with no stale cache entry for that root) is
topologically valid: every input of every node in the list appears strictly
earlier in the list. -/
theorem c1_getEvalOrder_topological (s : Net) (root : NodeId)
    (skipPairNetwork : Bool) (hcl : s.graph.Closed)
    (hr : root ∈ s.graph.nodes)
    (hA : ∀ v ∈ s.graph.nodes, ¬ Relation.TransGen (stepRel s.graph) v v)
    (hmiss : orderMapFind s.cacheEvalOrders root = none) :
    ∀ l1 n l2, (getEvalOrder s root skipPairNetwork).1 = l1 ++ n :: l2 →
      ∀ i ∈ s.graph.inputs n, i ∈ l1 := by
  have h1 : (getEvalOrder s root skipPairNetwork).1 =
      enumerateNodes s.graph true skipPairNetwork root := by
    show (getCalcOrder s.graph root s.cacheEvalOrders true skipPairNetwork).1 = _
    rw [getCalcOrder, hmiss]
  rw [h1]
  exact (enumerateNodes_spec s.graph hcl root hr skipPairNetwork).2.2.2 hA

theorem acyclic_of_rank (g : Graph) (f : NodeId → Nat)
    (h : ∀ a b, stepRel g a b → f b < f a) :
    ∀ v, ¬ Relation.TransGen (stepRel g) v v := by
  have hlt : ∀ a b, Relation.TransGen (stepRel g) a b → f b < f a := by
    intro a b hab
    induction hab with
    | single h1 => exact h _ _ h1
    | tail _ h2 ih => exact lt_trans (h _ _ h2) ih
  intro v hv
  exact lt_irrefl (f v) (hlt v v hv)

theorem chainGraph_rank : ∀ a b, stepRel chainGraph a b → b < a := by
  intro a b hb
  simp only [stepRel, chainGraph] at hb
  split_ifs at hb with h2 h1
  · simp at hb
    subst hb
    subst h2
    decide
  · simp at hb
    subst hb
    subst h1
    decide
  · simp at hb

theorem chainGraph_closed : chainGraph.Closed := by
  show ∀ v ∈ chainGraph.nodes, ∀ i ∈ chainGraph.inputs v, i ∈ chainGraph.nodes
  decide

/-- C1 witness: the A -> B -> C chain is closed and acyclic, the fresh
network has no cached entry for root C, and the returned evaluation order
is topologically valid. -/
theorem c1_getEvalOrder_topological_witness :
    chainGraph.Closed ∧ (2 : NodeId) ∈ chainGraph.nodes ∧
    orderMapFind chainNet.cacheEvalOrders 2 = none ∧
    (∀ l1 n l2, (getEvalOrder chainNet 2 false).1 = l1 ++ n :: l2 →
      ∀ i ∈ chainGraph.inputs n, i ∈ l1) :=
  ⟨chainGraph_closed, by decide, rfl,
   c1_getEvalOrder_topological chainNet 2 false chainGraph_closed (by decide)
     (fun v _ => acyclic_of_rank chainGraph (fun x => x) chainGraph_rank v)
     rfl⟩

/-- C3: after any graph edit (modelled per the spec as the new graph and
registry followed by ClearCaches), GetEvalOrder and GetGradientCalcOrder
recompute from the post-edit graph: the result equals the fresh enumeration
of the new graph regardless of what was cached; consequently no node
unreachable in the new graph (such as a deleted one) appears in the
returned order, and every input dependency present in the new graph is
reflected in it. -/
theorem c3_edit_invalidates (s : Net) (g2 : Graph) (r2 : Registry)
    (root : NodeId) (skipPairNetwork : Bool) :
    ((getEvalOrder (applyGraphEdit s g2 r2) root skipPairNetwork).1 =
      enumerateNodes g2 true skipPairNetwork root) ∧
    ((getGradientCalcOrder (applyGraphEdit s g2 r2) root).1 =
      enumerateNodes g2 false false root) ∧
    (g2.Closed → root ∈ g2.nodes →
      (∀ d, ¬ Reaches g2 root d →
        d ∉ (getEvalOrder (applyGraphEdit s g2 r2) root skipPairNetwork).1) ∧
      (∀ n ∈ (getEvalOrder (applyGraphEdit s g2 r2) root skipPairNetwork).1,
        ∀ i ∈ g2.inputs n,
          i ∈ (getEvalOrder (applyGraphEdit s g2 r2) root skipPairNetwork).1)) := by
  have h1 : (getEvalOrder (applyGraphEdit s g2 r2) root skipPairNetwork).1 =
      enumerateNodes g2 true skipPairNetwork root := rfl
  have h2 : (getGradientCalcOrder (applyGraphEdit s g2 r2) root).1 =
      enumerateNodes g2 false false root := rfl
  refine ⟨h1, h2, ?_⟩
  intro hcl hr
  have hspec := enumerateNodes_spec g2 hcl root hr skipPairNetwork
  constructor
  · intro d hd hmem
    rw [h1] at hmem
    exact hd (hspec.2.1 d hmem).1
  · intro n hn i hi
    rw [h1] at hn ⊢
    exact hspec.2.2.1 n hn i hi

/-- C3 witness: editing the network whose caches are primed with stale
marker lists yields the freshly computed order [A, B, C] rather than the
stale entry, and nodes unreachable from the root do not appear. -/
theorem c3_edit_invalidates_witness :
    (getEvalOrder (applyGraphEdit cachedChainNet chainGraph
      chainNet.nameToNodeMap) 2 false).1 = [0, 1, 2] ∧
    chainGraph.Closed ∧ (2 : NodeId) ∈ chainGraph.nodes ∧
    (∀ d, ¬ Reaches chainGraph 2 d →
      d ∉ (getEvalOrder (applyGraphEdit cachedChainNet chainGraph
        chainNet.nameToNodeMap) 2 false).1) :=
  ⟨by decide, chainGraph_closed, by decide,
   ((c3_edit_invalidates cachedChainNet chainGraph chainNet.nameToNodeMap
       2 false).2.2 chainGraph_closed (by decide)).1⟩

/-- Per-position packing flags of a minibatch layout; only the NoLabel bit
is read by GetNumSamplesWithLabel, remaining flag kinds are collapsed into
one bit so that IsAllNone keeps its meaning. -/
structure PackingFlags where
  noLabel : Bool
  other : Bool
deriving DecidableEq

/-- Modelled from the spec: MBLayout (Sequences.h) is not under src.  It
carries the minibatch dimensions and per-(sequence, time-step) packing
flags; the column query Is(t, flag) holds when some sequence carries the
flag at step t, and IsAllNone holds when no flag is set anywhere. -/
structure MBLayout where
  numTimeSteps : Nat
  numParallelSequences : Nat
  flags : Nat → Nat → PackingFlags

/-- IsAllNone: no packing flag is set at any (sequence, step) position. -/
def MBLayout.isAllNone (pL : MBLayout) : Bool :=
  (List.range pL.numTimeSteps).all (fun t =>
    (List.range pL.numParallelSequences).all (fun id =>
      decide (pL.flags id t = ⟨false, false⟩)))

/-- Is(t, NoLabel): the column flag, the or of the per-sequence flags. -/
def MBLayout.colNoLabel (pL : MBLayout) (t : Nat) : Bool :=
  (List.range pL.numParallelSequences).any (fun id => (pL.flags id t).noLabel)

/-- GetNumSamplesWithLabel (ComputationNetwork.h lines 299-324): with an
installed, not-all-none layout, count the positions flagged NoLabel (inner
loop guarded by the column flag) and return steps * sequences minus that;
otherwise return numAllSamples unchanged. -/
def getNumSamplesWithLabel (layout : Option MBLayout)
    (numAllSamples : Nat) : Nat :=
  match layout with
  | some pL =>
    if pL.isAllNone then numAllSamples
    else
      let numTimeSteps := pL.numTimeSteps
      let numSequences := pL.numParallelSequences
      let numSamplesWithoutLabel :=
        (List.range numTimeSteps).foldl (fun acc t =>
          if pL.colNoLabel t then
            (List.range numSequences).foldl (fun acc2 id =>
              if (pL.flags id t).noLabel then acc2 + 1 else acc2) acc
          else acc) 0
      numTimeSteps * numSequences - numSamplesWithoutLabel
  | none => numAllSamples

/-- Reference count: the number of (sequence, time-step) positions flagged
NoLabel. -/
def countNoLabel (pL : MBLayout) : Nat :=
  ((List.range pL.numTimeSteps).map (fun t =>
    ((List.range pL.numParallelSequences).filter
      (fun id => (pL.flags id t).noLabel)).length)).sum

theorem foldl_count {α : Type} (p : α → Bool) :
    ∀ (l : List α) (acc : Nat),
      l.foldl (fun a x => if p x then a + 1 else a) acc =
        acc + (l.filter p).length := by
  intro l
  induction l with
  | nil => intro acc; simp
  | cons a t ih =>
    intro acc
    by_cases hp : p a = true
    · rw [List.foldl_cons, List.filter_cons]
      simp only [hp, if_true]
      rw [ih (acc + 1)]
      simp only [List.length_cons]
      omega
    · rw [List.foldl_cons, List.filter_cons]
      rw [Bool.not_eq_true] at hp
      simp only [hp, Bool.false_eq_true, if_false]
      rw [ih acc]

theorem foldl_guarded_sum (cond : Nat → Bool) (f : Nat → Nat)
    (hzero : ∀ t, cond t = false → f t = 0) :
    ∀ (l : List Nat) (acc : Nat),
      l.foldl (fun acc t => if cond t then acc + f t else acc) acc =
        acc + (l.map f).sum := by
  intro l
  induction l with
  | nil => intro acc; simp
  | cons a t ih =>
    intro acc
    rw [List.foldl_cons, List.map_cons, List.sum_cons]
    by_cases hc : cond a = true
    · simp only [hc, if_true]
      rw [ih (acc + f a)]
      omega
    · rw [Bool.not_eq_true] at hc
      simp only [hc, Bool.false_eq_true, if_false]
      rw [ih acc, hzero a hc]
      omega

/-- C10: GetNumSamplesWithLabel returns numAllSamples unchanged when no
layout is installed or the layout is all-none; otherwise it returns
numTimeSteps * numParallelSequences minus the number of positions flagged
NoLabel, which never exceeds numTimeSteps * numParallelSequences. -/
theorem c10_getNumSamplesWithLabel (layout : Option MBLayout)
    (numAllSamples : Nat) :
    (layout = none →
      getNumSamplesWithLabel layout numAllSamples = numAllSamples) ∧
    (∀ pL, layout = some pL → pL.isAllNone = true →
      getNumSamplesWithLabel layout numAllSamples = numAllSamples) ∧
    (∀ pL, layout = some pL → pL.isAllNone = false →
      getNumSamplesWithLabel layout numAllSamples =
        pL.numTimeSteps * pL.numParallelSequences - countNoLabel pL ∧
      countNoLabel pL ≤ pL.numTimeSteps * pL.numParallelSequences ∧
      getNumSamplesWithLabel layout numAllSamples ≤
        pL.numTimeSteps * pL.numParallelSequences) := by
  refine ⟨?_, ?_, ?_⟩
  · intro h
    rw [h, getNumSamplesWithLabel]
  · intro pL h hall
    rw [h, getNumSamplesWithLabel.eq_def]
    simp [hall]
  · intro pL h hall
    have hcnt : ∀ t, pL.colNoLabel t = false →
        ((List.range pL.numParallelSequences).filter
          (fun id => (pL.flags id t).noLabel)).length = 0 := by
      intro t hcol
      rw [List.length_eq_zero]
      rw [List.filter_eq_nil_iff]
      intro id hid
      rw [MBLayout.colNoLabel] at hcol
      have := List.any_eq_false.mp hcol id hid
      simpa using this
    have hinner : ∀ (acc : Nat) t,
        (if pL.colNoLabel t then
          (List.range pL.numParallelSequences).foldl
            (fun acc2 id => if (pL.flags id t).noLabel then acc2 + 1 else acc2)
            acc
         else acc) =
        (if pL.colNoLabel t then
          acc + ((List.range pL.numParallelSequences).filter
            (fun id => (pL.flags id t).noLabel)).length
         else acc) := by
      intro acc t
      by_cases hc : pL.colNoLabel t = true
      · simp only [hc, if_true]
        exact foldl_count _ _ acc
      · rw [Bool.not_eq_true] at hc
        simp only [hc, Bool.false_eq_true, if_false]
    have hmain :
        (List.range pL.numTimeSteps).foldl (fun acc t =>
          if pL.colNoLabel t then
            (List.range pL.numParallelSequences).foldl
              (fun acc2 id =>
                if (pL.flags id t).noLabel then acc2 + 1 else acc2) acc
          else acc) 0 = countNoLabel pL := by
      have hcongr :
          (List.range pL.numTimeSteps).foldl (fun acc t =>
            if pL.colNoLabel t then
              (List.range pL.numParallelSequences).foldl
                (fun acc2 id =>
                  if (pL.flags id t).noLabel then acc2 + 1 else acc2) acc
            else acc) 0 =
          (List.range pL.numTimeSteps).foldl (fun acc t =>
            if pL.colNoLabel t then
              acc + ((List.range pL.numParallelSequences).filter
                (fun id => (pL.flags id t).noLabel)).length
            else acc) 0 := by
        apply List.foldl_ext
        intro acc t _
        exact hinner acc t
      rw [hcongr,
        foldl_guarded_sum pL.colNoLabel
          (fun t => ((List.range pL.numParallelSequences).filter
            (fun id => (pL.flags id t).noLabel)).length) hcnt]
      rw [countNoLabel]
      simp
    have hle : countNoLabel pL ≤
        pL.numTimeSteps * pL.numParallelSequences := by
      rw [countNoLabel]
      have hbound : ∀ x ∈ (List.range pL.numTimeSteps).map (fun t =>
          ((List.range pL.numParallelSequences).filter
            (fun id => (pL.flags id t).noLabel)).length),
          x ≤ pL.numParallelSequences := by
        intro x hx
        obtain ⟨t, _, rfl⟩ := List.mem_map.mp hx
        calc ((List.range pL.numParallelSequences).filter
              (fun id => (pL.flags id t).noLabel)).length
            ≤ (List.range pL.numParallelSequences).length :=
              List.length_filter_le _ _
          _ = pL.numParallelSequences := List.length_range _
      have := List.sum_le_card_nsmul _ _ hbound
      simpa [Nat.mul_comm] using this
    have hval : getNumSamplesWithLabel layout numAllSamples =
        pL.numTimeSteps * pL.numParallelSequences - countNoLabel pL := by
      rw [h, getNumSamplesWithLabel.eq_def]
      simp only [hall, Bool.false_eq_true, if_false]
      rw [hmain]
    exact ⟨hval, hle, by rw [hval]; exact Nat.sub_le _ _⟩

/-- Concrete layout: 2 steps, 2 sequences, NoLabel set at sequence 1,
step 0. -/
def sampleLayout : MBLayout where
  numTimeSteps := 2
  numParallelSequences := 2
  flags := fun id t => ⟨decide (id = 1 ∧ t = 0), false⟩

/-- C10 witness: on the concrete layout the function returns 2*2 - 1 = 3,
and with no layout it returns numAllSamples. -/
theorem c10_getNumSamplesWithLabel_witness :
    sampleLayout.isAllNone = false ∧
    getNumSamplesWithLabel (some sampleLayout) 77 =
      sampleLayout.numTimeSteps * sampleLayout.numParallelSequences -
        countNoLabel sampleLayout ∧
    getNumSamplesWithLabel (some sampleLayout) 77 = 3 ∧
    getNumSamplesWithLabel none 77 = 77 :=
  ⟨by decide,
   ((c10_getNumSamplesWithLabel (some sampleLayout) 77).2.2 sampleLayout
     rfl (by decide)).1,
   by decide,
   (c10_getNumSamplesWithLabel none 77).1 rfl⟩

/-- One closure step of the reachable set: add all inputs of its members. -/
def stepClose (g : Graph) (s : List NodeId) : List NodeId :=
  (s ++ s.flatMap g.inputs).dedup

/-- All nodes reachable from a along input pointers, computed by iterating
the closure step as many times as there are distinct owned nodes. -/
def reachSet (g : Graph) (a : NodeId) : List NodeId :=
  (stepClose g)^[g.nodes.dedup.length] [a]

/-- Decidable reachability test. -/
def reachableB (g : Graph) (a b : NodeId) : Bool := decide (b ∈ reachSet g a)

theorem mem_stepClose_self (g : Graph) (s : List NodeId) :
    ∀ x ∈ s, x ∈ stepClose g s := by
  intro x hx
  rw [stepClose, List.mem_dedup]
  exact List.mem_append_left _ hx

theorem stepClose_sound (g : Graph) (a : NodeId) (s : List NodeId)
    (h : ∀ x ∈ s, Reaches g a x) : ∀ x ∈ stepClose g s, Reaches g a x := by
  intro x hx
  rw [stepClose, List.mem_dedup, List.mem_append] at hx
  rcases hx with hx | hx
  · exact h x hx
  · obtain ⟨y, hy, hxy⟩ := List.mem_flatMap.mp hx
    exact Relation.ReflTransGen.tail (h y hy) hxy

theorem stepClose_subset_nodes (g : Graph) (hcl : g.Closed)
    (s : List NodeId) (h : ∀ x ∈ s, x ∈ g.nodes) :
    ∀ x ∈ stepClose g s, x ∈ g.nodes := by
  intro x hx
  rw [stepClose, List.mem_dedup, List.mem_append] at hx
  rcases hx with hx | hx
  · exact h x hx
  · obtain ⟨y, hy, hxy⟩ := List.mem_flatMap.mp hx
    exact hcl y (h y hy) x hxy

theorem iterate_stepClose_sound (g : Graph) (a : NodeId) :
    ∀ n, ∀ x ∈ (stepClose g)^[n] [a], Reaches g a x := by
  intro n
  induction n with
  | zero =>
    intro x hx
    rw [Function.iterate_zero_apply] at hx
    rw [List.mem_singleton] at hx
    subst hx
    exact Relation.ReflTransGen.refl
  | succ n ih =>
    intro x hx
    rw [Function.iterate_succ_apply'] at hx
    exact stepClose_sound g a _ ih x hx

theorem iterate_stepClose_subset_nodes (g : Graph) (hcl : g.Closed)
    (a : NodeId) (ha : a ∈ g.nodes) :
    ∀ n, ∀ x ∈ (stepClose g)^[n] [a], x ∈ g.nodes := by
  intro n
  induction n with
  | zero =>
    intro x hx
    rw [Function.iterate_zero_apply, List.mem_singleton] at hx
    subst hx
    exact ha
  | succ n ih =>
    intro x hx
    rw [Function.iterate_succ_apply'] at hx
    exact stepClose_subset_nodes g hcl _ ih x hx

theorem iterate_stepClose_mono (g : Graph) (a : NodeId) :
    ∀ n k, ∀ x ∈ (stepClose g)^[n] [a], x ∈ (stepClose g)^[n + k] [a] := by
  intro n k
  induction k with
  | zero => intro x hx; exact hx
  | succ k ih =>
    intro x hx
    have : n + (k + 1) = (n + k) + 1 := rfl
    rw [this, Function.iterate_succ_apply']
    exact mem_stepClose_self g _ x (ih x hx)

theorem mem_iterate_stepClose_self (g : Graph) (a : NodeId) :
    ∀ n, a ∈ (stepClose g)^[n] [a] := by
  intro n
  have h0 : a ∈ (stepClose g)^[0] [a] := by
    rw [Function.iterate_zero_apply]
    exact List.mem_singleton_self a
  have := iterate_stepClose_mono g a 0 n a h0
  simpa using this

theorem stable_contains_reachable (g : Graph) (a : NodeId) (S : List NodeId)
    (hstab : ∀ x ∈ stepClose g S, x ∈ S) (ha : a ∈ S) :
    ∀ b, Reaches g a b → b ∈ S := by
  intro b hb
  induction hb with
  | refl => exact ha
  | tail _ hbc ih =>
    apply hstab
    rw [stepClose, List.mem_dedup, List.mem_append]
    right
    exact List.mem_flatMap.mpr ⟨_, ih, hbc⟩

theorem stepClose_stabilizes (g : Graph) (hcl : g.Closed) (a : NodeId)
    (ha : a ∈ g.nodes) :
    ∃ i < g.nodes.dedup.length,
      ∀ x ∈ stepClose g ((stepClose g)^[i] [a]), x ∈ (stepClose g)^[i] [a] := by
  set n := g.nodes.dedup.length with hn
  by_contra hcon
  push_neg at hcon
  have hgrow : ∀ i ≤ n, i + 1 ≤ ((stepClose g)^[i] [a]).toFinset.card := by
    intro i
    induction i with
    | zero =>
      intro _
      rw [Function.iterate_zero_apply]
      simp
    | succ i ih =>
      intro hile
      obtain ⟨x, hx1, hx2⟩ := hcon i (by omega)
      have hsub : ((stepClose g)^[i] [a]).toFinset ⊆
          ((stepClose g)^[i + 1] [a]).toFinset := by
        intro y hy
        rw [List.mem_toFinset] at hy ⊢
        have := iterate_stepClose_mono g a i 1 y hy
        simpa using this
      have hxin : x ∈ ((stepClose g)^[i + 1] [a]).toFinset := by
        rw [List.mem_toFinset, Function.iterate_succ_apply']
        exact hx1
      have hxout : x ∉ ((stepClose g)^[i] [a]).toFinset := by
        rw [List.mem_toFinset]
        exact hx2
      have hss : ((stepClose g)^[i] [a]).toFinset ⊂
          ((stepClose g)^[i + 1] [a]).toFinset :=
        Finset.ssubset_iff_of_subset hsub |>.mpr ⟨x, hxin, hxout⟩
      have := Finset.card_lt_card hss
      have hprev := ih (by omega)
      omega
  have hboundcard : ((stepClose g)^[n] [a]).toFinset.card ≤ n := by
    have hsub : ((stepClose g)^[n] [a]).toFinset ⊆ g.nodes.toFinset := by
      intro y hy
      rw [List.mem_toFinset] at hy ⊢
      exact iterate_stepClose_subset_nodes g hcl a ha n y hy
    have h1 := Finset.card_le_card hsub
    have h2 : g.nodes.toFinset.card = n := by
      rw [hn]
      exact List.card_toFinset g.nodes
    omega
  have := hgrow n (le_refl n)
  omega

theorem reaches_mem_reachSet (g : Graph) (hcl : g.Closed) (a : NodeId)
    (ha : a ∈ g.nodes) : ∀ b, Reaches g a b → b ∈ reachSet g a := by
  intro b hb
  obtain ⟨i, hilt, hstab⟩ := stepClose_stabilizes g hcl a ha
  have hbS : b ∈ (stepClose g)^[i] [a] :=
    stable_contains_reachable g a _ hstab (mem_iterate_stepClose_self g a i) b hb
  have : b ∈ (stepClose g)^[i + (g.nodes.dedup.length - i)] [a] :=
    iterate_stepClose_mono g a i _ b hbS
  rw [reachSet]
  have heq : i + (g.nodes.dedup.length - i) = g.nodes.dedup.length := by omega
  rwa [heq] at this

/-- Decidable reachability agrees with the reachability relation on owned
sources in a closed graph. -/
theorem reachableB_iff (g : Graph) (hcl : g.Closed) (a : NodeId)
    (ha : a ∈ g.nodes) (b : NodeId) :
    reachableB g a b = true ↔ Reaches g a b := by
  rw [reachableB, decide_eq_true_iff]
  constructor
  · intro h
    exact iterate_stepClose_sound g a _ b h
  · exact reaches_mem_reachSet g hcl a ha b

theorem reaches_mem_nodes (g : Graph) (hcl : g.Closed) (a : NodeId)
    (ha : a ∈ g.nodes) : ∀ b, Reaches g a b → b ∈ g.nodes := by
  intro b hb
  induction hb with
  | refl => exact ha
  | tail _ hbc ih => exact hcl _ ih _ hbc

/-- Two nodes lie in the same strongly connected component. -/
def sameSCCb (g : Graph) (v w : NodeId) : Bool :=
  reachableB g v w && reachableB g w v

/-- Decidable test that v lies on a dependency cycle (some input reaches
back to v; a self-loop qualifies). -/
def onCycleB (g : Graph) (v : NodeId) : Bool :=
  (g.inputs v).any (fun i => reachableB g i v)

/-- The strongly connected component of v among the owned nodes. -/
def sccOf (g : Graph) (v : NodeId) : List NodeId :=
  g.nodes.dedup.filter (fun w => sameSCCb g v w)

/-- Modelled from the spec: DetermineSCCs / FormRecurrentLoops bodies are
not under src; per spec section 4.2 loop detection computes the strongly
connected components of the subgraph reachable from the root, and exactly
the components of size at least two, or with a self-loop, become loops
(components of size one without a self-loop do not).  Such components are
exactly those all of whose members lie on a cycle. -/
def detectLoops (g : Graph) (root : NodeId) : List (List NodeId) :=
  (((reachSet g root).dedup.filter (fun v => onCycleB g v)).map
    (fun v => sccOf g v)).dedup

theorem transGen_self_iff_onCycle (g : Graph) (v : NodeId) :
    Relation.TransGen (stepRel g) v v ↔ OnCycle g v := by
  constructor
  · intro h
    obtain ⟨b, hvb, hbv⟩ := Relation.TransGen.head'_iff.mp h
    exact ⟨b, hvb, hbv⟩
  · rintro ⟨i, hi, hr⟩
    exact Relation.TransGen.head' hi hr

theorem transGen_self_of_mutual (g : Graph) (v w : NodeId) (hne : v ≠ w)
    (hvw : Reaches g v w) (hwv : Reaches g w v) :
    Relation.TransGen (stepRel g) v v := by
  rcases Relation.ReflTransGen.cases_head hvw with heq | ⟨c, hvc, hcw⟩
  · exact absurd heq hne
  · exact Relation.TransGen.head' hvc (hcw.trans hwv)

theorem onCycleB_iff (g : Graph) (hcl : g.Closed) (v : NodeId)
    (hv : v ∈ g.nodes) : onCycleB g v = true ↔ OnCycle g v := by
  rw [onCycleB, List.any_eq_true]
  constructor
  · rintro ⟨i, hi, hr⟩
    exact ⟨i, hi, (reachableB_iff g hcl i (hcl v hv i hi) v).mp hr⟩
  · rintro ⟨i, hi, hr⟩
    exact ⟨i, hi, (reachableB_iff g hcl i (hcl v hv i hi) v).mpr hr⟩

theorem sameSCCb_iff (g : Graph) (hcl : g.Closed) (v w : NodeId)
    (hv : v ∈ g.nodes) (hw : w ∈ g.nodes) :
    sameSCCb g v w = true ↔ (Reaches g v w ∧ Reaches g w v) := by
  rw [sameSCCb, Bool.and_eq_true, reachableB_iff g hcl v hv w,
    reachableB_iff g hcl w hw v]

theorem dedup_const {α : Type} [DecidableEq α] :
    ∀ (l : List α) (x : α), l ≠ [] → (∀ y ∈ l, y = x) → l.dedup = [x] := by
  intro l
  induction l with
  | nil => intro x h; exact absurd rfl h
  | cons y t ih =>
    intro x _ hall
    have hy : y = x := hall y (List.mem_cons_self y t)
    cases t with
    | nil =>
      rw [hy]
      rfl
    | cons z t2 =>
      have hz : z = x := hall z (List.mem_cons_of_mem y (List.mem_cons_self z t2))
      have hmem : y ∈ z :: t2 := by
        rw [hy, hz]
        exact List.mem_cons_self x t2
      rw [List.dedup_cons_of_mem hmem]
      exact ih x (List.cons_ne_nil z t2)
        (fun y2 hy2 => hall y2 (List.mem_cons_of_mem y hy2))

/-- C5: for a closed graph whose only cycle structure is the mutually
reachable node set C of size at least 2 (no node outside C lies on any
cycle), with C reachable from the root, loop detection from the root
produces exactly one loop, containing exactly the nodes of C; and every
member of every produced loop lies on a cycle, so components of size one
without a self-loop never become loops. -/
theorem c5_loop_detection (g : Graph) (root : NodeId) (C : List NodeId)
    (hcl : g.Closed) (hroot : root ∈ g.nodes)
    (hnd : C.Nodup) (hk : 2 ≤ C.length)
    (hmut : ∀ v ∈ C, ∀ w ∈ C, Reaches g v w)
    (honly : ∀ v ∈ g.nodes, OnCycle g v → v ∈ C)
    (hreach : ∀ v ∈ C, Reaches g root v) :
    (∃ L, detectLoops g root = [L] ∧ (∀ x, x ∈ L ↔ x ∈ C)) ∧
      (∀ L ∈ detectLoops g root, ∀ v ∈ L, OnCycle g v) := by
  have hCnodes : ∀ v ∈ C, v ∈ g.nodes :=
    fun v hv => reaches_mem_nodes g hcl root hroot v (hreach v hv)
  obtain ⟨c0, C', hC⟩ : ∃ c0 C', C = c0 :: C' := by
    cases C with
    | nil => simp at hk
    | cons c0 C' => exact ⟨c0, C', rfl⟩
  have hother : ∀ v, ∃ w ∈ C, w ≠ v := by
    intro v
    obtain ⟨c1, C'', hC'⟩ : ∃ c1 C'', C' = c1 :: C'' := by
      cases C' with
      | nil => rw [hC] at hk; simp at hk
      | cons c1 C'' => exact ⟨c1, C'', rfl⟩
    have hne01 : c0 ≠ c1 := by
      rw [hC, hC'] at hnd
      have := (List.pairwise_cons.mp hnd).1 c1 (List.mem_cons_self c1 C'')
      exact this
    by_cases hv : v = c0
    · refine ⟨c1, ?_, ?_⟩
      · rw [hC, hC']
        exact List.mem_cons_of_mem c0 (List.mem_cons_self c1 C'')
      · rw [hv]
        exact fun h => hne01 h.symm
    · exact ⟨c0, by rw [hC]; exact List.mem_cons_self c0 C', fun h => hv h.symm⟩
  have honcycle : ∀ v ∈ C, OnCycle g v := by
    intro v hv
    obtain ⟨w, hw, hne⟩ := hother v
    exact (transGen_self_iff_onCycle g v).mp
      (transGen_self_of_mutual g v w (fun h => hne (h.symm))
        (hmut v hv w hw) (hmut w hw v hv))
  have hc0 : c0 ∈ C := by rw [hC]; exact List.mem_cons_self c0 C'
  have hloopiff : ∀ x,
      x ∈ (reachSet g root).dedup.filter (fun v => onCycleB g v) ↔ x ∈ C := by
    intro x
    rw [List.mem_filter, List.mem_dedup]
    constructor
    · rintro ⟨hxr, hxc⟩
      have hxn : x ∈ g.nodes :=
        reaches_mem_nodes g hcl root hroot x
          (iterate_stepClose_sound g root _ x hxr)
      exact honly x hxn ((onCycleB_iff g hcl x hxn).mp hxc)
    · intro hxC
      refine ⟨reaches_mem_reachSet g hcl root hroot x (hreach x hxC), ?_⟩
      exact (onCycleB_iff g hcl x (hCnodes x hxC)).mpr (honcycle x hxC)
  have hscc_eq : ∀ v ∈ C, sccOf g v = sccOf g c0 := by
    intro v hv
    rw [sccOf, sccOf]
    apply List.filter_congr
    intro w hw
    have hwn : w ∈ g.nodes := List.mem_dedup.mp hw
    rw [Bool.eq_iff_iff, sameSCCb_iff g hcl v w (hCnodes v hv) hwn,
      sameSCCb_iff g hcl c0 w (hCnodes c0 hc0) hwn]
    constructor
    · rintro ⟨h1, h2⟩
      exact ⟨(hmut c0 hc0 v hv).trans h1, h2.trans (hmut v hv c0 hc0)⟩
    · rintro ⟨h1, h2⟩
      exact ⟨(hmut v hv c0 hc0).trans h1, h2.trans (hmut c0 hc0 v hv)⟩
  have hsccC : ∀ x, x ∈ sccOf g c0 ↔ x ∈ C := by
    intro x
    rw [sccOf, List.mem_filter, List.mem_dedup]
    constructor
    · rintro ⟨hxn, hscc⟩
      obtain ⟨h1, h2⟩ := (sameSCCb_iff g hcl c0 x (hCnodes c0 hc0) hxn).mp hscc
      by_cases hxc : x = c0
      · rw [hxc]; exact hc0
      · exact honly x hxn ((transGen_self_iff_onCycle g x).mp
          (transGen_self_of_mutual g x c0 hxc h2 h1))
    · intro hxC
      exact ⟨hCnodes x hxC, (sameSCCb_iff g hcl c0 x (hCnodes c0 hc0)
        (hCnodes x hxC)).mpr ⟨hmut c0 hc0 x hxC, hmut x hxC c0 hc0⟩⟩
  have hdl : detectLoops g root = [sccOf g c0] := by
    rw [detectLoops]
    apply dedup_const
    · intro hmap
      have := List.map_eq_nil_iff.mp hmap
      have hc0mem := (hloopiff c0).mpr hc0
      rw [this] at hc0mem
      cases hc0mem
    · intro L hL
      obtain ⟨v, hv, rfl⟩ := List.mem_map.mp hL
      exact hscc_eq v ((hloopiff v).mp hv)
  refine ⟨⟨sccOf g c0, hdl, hsccC⟩, ?_⟩
  intro L hL v hv
  rw [hdl, List.mem_singleton] at hL
  subst hL
  exact honcycle v ((hsccC v).mp hv)

/-- Scenario graph of spec section 8 (Scenario B): A consumes B, and B and
the delayed B form a two-node cycle; here 0 is the root consumer and
{1, 2} is the cycle. -/
def loopGraph : Graph where
  nodes := [0, 1, 2]
  inputs := fun v => if v = 0 then [1] else if v = 1 then [2] else
    if v = 2 then [1] else []

theorem loopGraph_closed : loopGraph.Closed := by
  show ∀ v ∈ loopGraph.nodes, ∀ i ∈ loopGraph.inputs v, i ∈ loopGraph.nodes
  decide

theorem reaches_stay (g : Graph) (S : List NodeId)
    (hS : ∀ x ∈ S, ∀ i ∈ g.inputs x, i ∈ S) :
    ∀ a b, Reaches g a b → a ∈ S → b ∈ S := by
  intro a b hab
  induction hab with
  | refl => exact fun h => h
  | tail _ hbc ih => exact fun h => hS _ (ih h) _ hbc

/-- C5 witness: on the concrete one-cycle graph, detection from root 0
yields exactly one loop with members {1, 2}, and every loop member lies on
a cycle. -/
theorem c5_loop_detection_witness :
    detectLoops loopGraph 0 = [[1, 2]] ∧
    (∃ L, detectLoops loopGraph 0 = [L] ∧ (∀ x, x ∈ L ↔ x ∈ [1, 2])) ∧
    (∀ L ∈ detectLoops loopGraph 0, ∀ v ∈ L, OnCycle loopGraph v) := by
  have h12 : Reaches loopGraph 1 2 :=
    Relation.ReflTransGen.single
      (show (2 : NodeId) ∈ loopGraph.inputs 1 from by decide)
  have h21 : Reaches loopGraph 2 1 :=
    Relation.ReflTransGen.single
      (show (1 : NodeId) ∈ loopGraph.inputs 2 from by decide)
  have h01 : Reaches loopGraph 0 1 :=
    Relation.ReflTransGen.single
      (show (1 : NodeId) ∈ loopGraph.inputs 0 from by decide)
  have hmut : ∀ v ∈ [1, 2], ∀ w ∈ [1, 2], Reaches loopGraph v w := by
    intro v hv w hw
    simp only [List.mem_cons, List.mem_singleton, List.not_mem_nil,
      or_false] at hv hw
    rcases hv with rfl | rfl <;> rcases hw with rfl | rfl
    · exact Relation.ReflTransGen.refl
    · exact h12
    · exact h21
    · exact Relation.ReflTransGen.refl
  have honly : ∀ v ∈ loopGraph.nodes, OnCycle loopGraph v → v ∈ [1, 2] := by
    intro v hv hcyc
    have hv3 : v = 0 ∨ v = 1 ∨ v = 2 := by
      simpa [loopGraph] using hv
    rcases hv3 with rfl | rfl | rfl
    · exfalso
      obtain ⟨i, hi, hr⟩ := hcyc
      have hi1 : i = 1 := by
        simpa [loopGraph] using hi
      subst hi1
      have h0S : (0 : NodeId) ∈ [1, 2] :=
        reaches_stay loopGraph [1, 2] (by decide) 1 0 hr (by decide)
      simp at h0S
    · decide
    · decide
  have hreach : ∀ v ∈ [1, 2], Reaches loopGraph 0 v := by
    intro v hv
    simp only [List.mem_cons, List.mem_singleton, List.not_mem_nil,
      or_false] at hv
    rcases hv with rfl | rfl
    · exact h01
    · exact Relation.ReflTransGen.tail h01
        (show (2 : NodeId) ∈ loopGraph.inputs 1 from by decide)
  have hmain := c5_loop_detection loopGraph 0 [1, 2] loopGraph_closed
    (by decide) (by decide) (by decide) hmut honly hreach
  refine ⟨by decide, hmain.1, hmain.2⟩

end CNTK
